import Mathlib

/-!
Verification development for the `advanced-vector` container
(`src/advanced-vector/vector.h`): a growable sequence container built from a
raw-storage handle `RawMemory<T>` plus a `Vector<T>` that tracks how many
slots hold live, constructed objects.

Shallow embedding conventions:
* A memory block is a list of slots; a slot is `Option α` (`none` means raw,
  uninitialized memory, `some a` means a live object with value `a`).
* Machine pointers become slot indices; `data_ + i` becomes the index `i`.
* Element copy construction and element copy assignment may fail (throw).
  Failure is injected by an oracle `o : Nat → Bool` consulted with a running
  call counter: the k-th copy in an operation fails iff `o k = true`.
* Element move construction / move assignment is modelled as non-failing.
  This mirrors the source's relocation policy (`CopyOrMove` moves only when
  `std::is_nothrow_move_constructible_v<T>` holds or `T` is not copyable) and
  the comments in the source stating the move paths of `Emplace`/`Erase`
  assume non-throwing moves.  Default construction is likewise modelled as
  non-failing (`Inhabited α` supplies the default value).
* A fallible C++ function becomes `Except (State) (State × ...)`: the `ok`
  branch is the normal return, the `error` branch carries the observable
  state of the object at the moment the exception escapes.
* The per-type flag `useMove` stands for the compile-time condition
  `std::is_nothrow_move_constructible_v<T> || !std::is_copy_constructible_v<T>`.
-/

namespace AV

variable {α : Type}

/-- One copy construction (or copy assignment) of an element, consuming one
oracle call: call number `k` fails iff `o k = true`; on success the value is
copied unchanged and the counter advances. -/
def copyOne (o : Nat → Bool) (k : Nat) (a : α) : Except Unit (α × Nat) :=
  if o k then .error () else .ok (a, k + 1)

/-- Write a run of slot values into a buffer starting at `dst`, one `List.set`
per slot (out-of-range writes are no-ops, as `List.set` is).  This is the
buffer effect of the `std::uninitialized_*` bulk-construction algorithms and
of element-by-element assignment loops. -/
def listWriteN : List (Option α) → Nat → List (Option α) → List (Option α)
  | buf, _, [] => buf
  | buf, dst, v :: rest => listWriteN (buf.set dst v) (dst + 1) rest

/-- Raw memory: an exclusively owned block of `capacity_` slots, never
constructing or destroying objects itself.  Mirrors `RawMemory<T>`; the
stored `capacity_` field of the source is the length of the slot list. -/
structure RawMemory (α : Type) where
  buffer_ : List (Option α)
deriving DecidableEq

/-- Mirrors `RawMemory<T>::Capacity()` (the `capacity_` field). -/
def RawMemory.Capacity (m : RawMemory α) : Nat :=
  m.buffer_.length

/-- Mirrors the `RawMemory(size_t capacity)` constructor: `Allocate(n)` yields
`n` uninitialized slots (`n = 0` yields the null, empty block). -/
def RawMemory.Allocate (α : Type) (n : Nat) : RawMemory α :=
  ⟨List.replicate n none⟩

/-- Read slot `i` (`operator[]` / `GetAddress() + i`).  Out-of-range reads
return `none`; the source asserts `i < capacity_`. -/
def RawMemory.get (m : RawMemory α) (i : Nat) : Option α :=
  m.buffer_.getD i none

/-- Write slot `i` (placement-new into, assignment into, or destruction of,
the object at slot `i`). -/
def RawMemory.set (m : RawMemory α) (i : Nat) (v : Option α) : RawMemory α :=
  ⟨m.buffer_.set i v⟩

/-- Bulk-write a run of slot values starting at `dst`. -/
def RawMemory.writeN (m : RawMemory α) (dst : Nat) (vals : List (Option α)) : RawMemory α :=
  ⟨listWriteN m.buffer_ dst vals⟩

/-- Read the run of `count` slots starting at `start`. -/
def RawMemory.readN (m : RawMemory α) (start count : Nat) : List (Option α) :=
  (m.buffer_.drop start).take count

/-- Mirrors `std::destroy_n(m + start, count)`: ends the lifetime of the
objects in slots `[start, start+count)`, leaving raw memory. -/
def RawMemory.destroyN (m : RawMemory α) (start count : Nat) : RawMemory α :=
  m.writeN start (List.replicate count none)

/-- Mirrors `std::uninitialized_copy_n(src, count, m + dst)` where `vals` are
the source slots: copy-constructs each element in turn (consuming oracle
calls).  If a copy throws, the algorithm destroys the elements it already
constructed and the exception escapes; the `error` branch carries the
destination memory after that cleanup. -/
def uninitializedCopyN (o : Nat → Bool) :
    Nat → List (Option α) → RawMemory α → Nat → Except (RawMemory α) (RawMemory α × Nat)
  | k, [], tgt, _ => .ok (tgt, k)
  | k, none :: rest, tgt, dst =>
    match uninitializedCopyN o k rest (tgt.set dst none) (dst + 1) with
    | .ok r => .ok r
    | .error to2 => .error (to2.set dst none)
  | k, some a :: rest, tgt, dst =>
    match copyOne o k a with
    | .error _ => .error tgt
    | .ok (b, k2) =>
      match uninitializedCopyN o k2 rest (tgt.set dst (some b)) (dst + 1) with
      | .ok r => .ok r
      | .error to2 => .error (to2.set dst none)

/-- Element-by-element copy-assignment loop
`for (i = 0; i != n; ++i) data_[i] = rhs.data_[i];` from the copy-assignment
operator.  Each assignment consumes one oracle call; if one throws, the
already-assigned prefix keeps its new values (assignment commits immediately)
and the `error` branch carries the memory at that point. -/
def assignN (o : Nat → Bool) :
    Nat → List (Option α) → RawMemory α → Nat → Except (RawMemory α) (RawMemory α × Nat)
  | k, [], m, _ => .ok (m, k)
  | k, none :: rest, m, i => assignN o k rest (m.set i none) (i + 1)
  | k, some a :: rest, m, i =>
    match copyOne o k a with
    | .error _ => .error m
    | .ok (b, k2) => assignN o k2 rest (m.set i (some b)) (i + 1)

/-- Mirrors `Vector<T>::CopyOrMove(from, to, count)` (here with the two
memory blocks and start offsets explicit): if `useMove` (the type moves
without failing or cannot be copied) the elements are move-constructed into
`tgt` and the originals destroyed; otherwise they are copy-constructed (which
may fail) and the originals are destroyed only after all copies succeeded.
On failure the `error` branch carries `(from, tgt)` at the throw point: the
source block untouched, the destination with the partial work destroyed. -/
def CopyOrMove (useMove : Bool) (o : Nat → Bool) (k : Nat)
    (fm : RawMemory α) (fromIdx : Nat) (tgt : RawMemory α) (toIdx count : Nat) :
    Except (RawMemory α × RawMemory α) (RawMemory α × RawMemory α × Nat) :=
  if useMove then
    .ok (fm.destroyN fromIdx count, tgt.writeN toIdx (fm.readN fromIdx count), k)
  else
    match uninitializedCopyN o k (fm.readN fromIdx count) tgt toIdx with
    | .error to2 => .error (fm, to2)
    | .ok (to2, k2) => .ok (fm.destroyN fromIdx count, to2, k2)

/-- Mirrors `Vector<T>`: a `RawMemory` plus the count `size_` of leading
slots holding live objects. -/
structure Vector (α : Type) where
  data_ : RawMemory α
  size_ : Nat
deriving DecidableEq

/-- Mirrors `Vector<T>::Size()`. -/
def Vector.Size (v : Vector α) : Nat :=
  v.size_

/-- Mirrors `Vector<T>::Capacity()` (`data_.Capacity()`). -/
def Vector.Capacity (v : Vector α) : Nat :=
  v.data_.Capacity

/-- The container invariant stated by the specification: `size ≤ capacity`. -/
def Vector.Inv (v : Vector α) : Prop :=
  v.size_ ≤ v.Capacity

/-- Well-formedness: `size ≤ capacity` and every slot in `[0, size)` holds a
live object.  This is the full representation invariant of the source
(`slots [0,size) hold live objects; slots [size,capacity) are raw`). -/
def Vector.WF (v : Vector α) : Prop :=
  v.size_ ≤ v.Capacity ∧ ∀ s ∈ v.data_.buffer_.take v.size_, s.isSome

/-- The live element values, in index order. -/
def Vector.toList (v : Vector α) : List α :=
  (v.data_.buffer_.take v.size_).reduceOption

instance (v : Vector α) : Decidable v.Inv := by
  unfold Vector.Inv
  infer_instance

instance (v : Vector α) : Decidable v.WF := by
  unfold Vector.WF
  infer_instance

/-- Mirrors `Vector()`: null storage, size 0. -/
def Vector.mkDefault : Vector α :=
  ⟨⟨[]⟩, 0⟩

/-- Mirrors `explicit Vector(size_t size)`: allocate `size` slots, then
`std::uninitialized_value_construct_n` default-constructs `size` elements. -/
def Vector.mkSized (α : Type) [Inhabited α] (size : Nat) : Vector α :=
  ⟨(RawMemory.Allocate α size).writeN 0 (List.replicate size (some default)), size⟩

/-- Mirrors `Vector(const Vector& other)`: allocate `other.size_` slots and
`std::uninitialized_copy_n` the live elements.  If a copy throws, that
algorithm destroys the constructed prefix and the fresh storage is released
by the `RawMemory` destructor before the failure propagates. -/
def Vector.copyCtor (o : Nat → Bool) (other : Vector α) : Except Unit (Vector α) :=
  match uninitializedCopyN o 0 (other.data_.readN 0 other.size_)
      (RawMemory.Allocate α other.size_) 0 with
  | .error _ => .error ()
  | .ok (m, _) => .ok ⟨m, other.size_⟩

/-- Mirrors `Vector(Vector&& other)`: the `RawMemory` move constructor swaps
with a default block, and `std::exchange(other.size_, 0)` empties the source.
Returns (the new vector, the moved-from source).  No element is touched. -/
def Vector.moveCtor (other : Vector α) : Vector α × Vector α :=
  (⟨other.data_, other.size_⟩, ⟨⟨[]⟩, 0⟩)

/-- Mirrors `operator=(const Vector& rhs)` for distinct objects (the source
guards self-assignment with `this != &rhs`; aliasing of two distinct names is
not representable in this value-level embedding).  Three paths:
rebuild-and-swap when `rhs.size_ > Capacity()`, overwrite-and-destroy-tail
when `rhs` is smaller, overwrite-and-copy-tail otherwise.  `size_ = rhs.size_`
runs only on the normal exit; `error` carries the destination at the throw
point. -/
def Vector.copyAssign (o : Nat → Bool) (v rhs : Vector α) : Except (Vector α) (Vector α) :=
  if rhs.size_ > v.data_.Capacity then
    match Vector.copyCtor o rhs with
    | .error _ => .error v
    | .ok rhsCopy => .ok ⟨rhsCopy.data_, rhs.size_⟩
  else
    if rhs.size_ < v.size_ then
      match assignN o 0 (rhs.data_.readN 0 rhs.size_) v.data_ 0 with
      | .error m => .error ⟨m, v.size_⟩
      | .ok (m, _) => .ok ⟨m.destroyN rhs.size_ (v.size_ - rhs.size_), rhs.size_⟩
    else
      match assignN o 0 (rhs.data_.readN 0 v.size_) v.data_ 0 with
      | .error m => .error ⟨m, v.size_⟩
      | .ok (m, k) =>
        match uninitializedCopyN o k (rhs.data_.readN v.size_ (rhs.size_ - v.size_)) m v.size_ with
        | .error m2 => .error ⟨m2, v.size_⟩
        | .ok (m2, _) => .ok ⟨m2, rhs.size_⟩

/-- Mirrors `operator=(Vector&& rhs)` for distinct objects: the destination
takes over the source's storage and size, the source is left with the null
block and size 0.  (The destination's old buffer is overwritten without
destruction in the source — a leak, which is not part of the observable
vector state.)  Returns (new destination, moved-from source). -/
def Vector.moveAssign (v rhs : Vector α) : Vector α × Vector α :=
  (⟨rhs.data_, rhs.size_⟩, ⟨⟨[]⟩, 0⟩)

/-- Mirrors `Vector<T>::Swap`: O(1) exchange of storage and size. -/
def Vector.SwapOp (a b : Vector α) : Vector α × Vector α :=
  (⟨b.data_, b.size_⟩, ⟨a.data_, a.size_⟩)

/-- Mirrors `Vector<T>::Reserve(new_capacity)`: a no-op when
`new_capacity ≤ data_.Capacity()`; otherwise allocate the new block, relocate
all `size_` elements with `CopyOrMove`, and adopt the new block by `Swap`.
If relocation throws, the new block is released by its destructor and the
failure propagates with the original storage untouched (the `error` branch
carries exactly the source memory `CopyOrMove` left behind). -/
def Vector.Reserve (useMove : Bool) (o : Nat → Bool) (v : Vector α)
    (new_capacity : Nat) : Except (Vector α) (Vector α) :=
  if new_capacity ≤ v.data_.Capacity then .ok v
  else
    match CopyOrMove useMove o 0 v.data_ 0 (RawMemory.Allocate α new_capacity) 0 v.size_ with
    | .error (fm, _) => .error ⟨fm, v.size_⟩
    | .ok (_, nd, _) => .ok ⟨nd, v.size_⟩

/-- Mirrors `Vector<T>::Resize(new_size)`: destroy the excess tail when
shrinking; `Reserve` then default-construct the new tail when growing. -/
def Vector.Resize [Inhabited α] (useMove : Bool) (o : Nat → Bool) (v : Vector α)
    (new_size : Nat) : Except (Vector α) (Vector α) :=
  if new_size = v.size_ then .ok v
  else
    if new_size < v.size_ then
      .ok ⟨v.data_.destroyN new_size (v.size_ - new_size), new_size⟩
    else
      match v.Reserve useMove o new_size with
      | .error e => .error e
      | .ok v2 =>
        .ok ⟨v2.data_.writeN v.size_ (List.replicate (new_size - v.size_) (some default)),
          new_size⟩

/-- Mirrors `Vector<T>::PopBack()`: destroy the last live element when
`size_ > 0`; a deliberate no-op on an empty vector. -/
def Vector.PopBack (v : Vector α) : Vector α :=
  if v.size_ > 0 then ⟨v.data_.destroyN (v.size_ - 1) 1, v.size_ - 1⟩ else v

/-- Mirrors `Vector<T>::EmplaceBack(args...)`.  The element construction from
`args...` is `mkF`, applied to the buffer visible to the argument references
at the construction point (here always the original `data_`, which is intact
when the placement-new runs).  If `size_ == Capacity()` a block of
`size_ == 0 ? 1 : size_ * 2` slots is allocated, the new element is
constructed at its tail slot, and the old elements are relocated with
`CopyOrMove` (unguarded: a relocation failure propagates, the new block is
released, and the vector is untouched).  Returns (the vector, the value the
returned reference denotes). -/
def Vector.EmplaceBack (useMove : Bool) (o : Nat → Bool) (v : Vector α)
    (mkF : RawMemory α → Except Unit α) : Except (Vector α) (Vector α × α) :=
  if v.size_ = v.Capacity then
    match mkF v.data_ with
    | .error _ => .error v
    | .ok elem =>
      match CopyOrMove useMove o 0 v.data_ 0
          ((RawMemory.Allocate α (if v.size_ = 0 then 1 else v.size_ * 2)).set v.size_
            (some elem)) 0 v.size_ with
      | .error _ => .error v
      | .ok (_, nd, _) => .ok (⟨nd, v.size_ + 1⟩, elem)
  else
    match mkF v.data_ with
    | .error _ => .error v
    | .ok elem => .ok (⟨v.data_.set v.size_ (some elem), v.size_ + 1⟩, elem)

/-- Mirrors `Vector<T>::Emplace(pos, args...)` with `pos` the slot index
(`pos - begin()`); the source asserts `pos ≤ end()`.  `mkF` is the
construction of the new element from `args...`, applied to the buffer visible
at the construction point (this captures arguments that alias the vector's
own elements).  Three paths, exactly as in the source:
* `pos == end()`: delegate to `EmplaceBack`.
* spare capacity: construct into a temporary, move the last element into the
  raw tail slot, `std::move_backward` the range `[pos, last)` one slot right,
  then move the temporary into slot `pos`.
* full: allocate `size_ == 0 ? 1 : size_ * 2` slots, construct the new
  element at slot `pos` of the new block, relocate the prefix `[0, pos)`
  (on failure: destroy the new element, rethrow), then relocate the suffix
  `[pos, size_)` — whose `catch` handler destroys slots `[0, pos]` of the new
  block but does NOT rethrow, after which the new block is still adopted and
  `size_` still incremented. -/
def Vector.Emplace (useMove : Bool) (o : Nat → Bool) (v : Vector α) (pos : Nat)
    (mkF : RawMemory α → Except Unit α) : Except (Vector α) (Vector α × Nat) :=
  if pos = v.size_ then
    match v.EmplaceBack useMove o mkF with
    | .error e => .error e
    | .ok (v2, _) => .ok (v2, pos)
  else
    if v.size_ ≠ v.Capacity then
      match mkF v.data_ with
      | .error _ => .error v
      | .ok tmp =>
        .ok (⟨(((v.data_.set v.size_ (v.data_.get (v.size_ - 1))).writeN (pos + 1)
          ((v.data_.set v.size_ (v.data_.get (v.size_ - 1))).readN pos
            (v.size_ - 1 - pos))).set pos (some tmp)), v.size_ + 1⟩, pos)
    else
      match mkF v.data_ with
      | .error _ => .error v
      | .ok elem =>
        match CopyOrMove useMove o 0 v.data_ 0
            ((RawMemory.Allocate α (if v.size_ = 0 then 1 else v.size_ * 2)).set pos
              (some elem)) 0 pos with
        | .error _ => .error v
        | .ok (fm1, nd2, k1) =>
          match CopyOrMove useMove o k1 fm1 pos nd2 (pos + 1) (v.size_ - pos) with
          | .error (_, nd3) => .ok (⟨nd3.destroyN 0 (pos + 1), v.size_ + 1⟩, pos)
          | .ok (_, nd3, _) => .ok (⟨nd3, v.size_ + 1⟩, pos)

/-- Mirrors `Insert(pos, value)` (both overloads): `Emplace` with the single
argument `value`, whose materialization is `mk` (a copy for the `const T&`
overload — which may fail — or a move for the `T&&` overload). -/
def Vector.Insert (useMove : Bool) (o : Nat → Bool) (v : Vector α) (pos : Nat)
    (mk : Except Unit α) : Except (Vector α) (Vector α × Nat) :=
  v.Emplace useMove o pos (fun _ => mk)

/-- Mirrors `Vector<T>::PushBack` (both overloads): `EmplaceBack` on the
single argument `value`, materialized by `mk`. -/
def Vector.PushBack (useMove : Bool) (o : Nat → Bool) (v : Vector α)
    (mk : Except Unit α) : Except (Vector α) (Vector α) :=
  match v.EmplaceBack useMove o (fun _ => mk) with
  | .error e => .error e
  | .ok (v2, _) => .ok v2

/-- Mirrors `Vector<T>::Erase(pos)` with `pos` the slot index; the source
asserts `pos ≤ end()`.  `pos == end()` runs `PopBack()` and returns the new
`end()`.  Otherwise `std::move(data_ + pos + 1, end(), data_ + pos)` shifts
the tail one slot left by move assignment, then `PopBack()` removes the
vacated last slot.  Returns (the vector, the returned iterator's index). -/
def Vector.Erase (v : Vector α) (pos : Nat) : Vector α × Nat :=
  if pos = v.size_ then
    (v.PopBack, v.PopBack.size_)
  else
    ((Vector.PopBack ⟨v.data_.writeN pos (v.data_.readN (pos + 1) (v.size_ - (pos + 1))),
      v.size_⟩), pos)

/-- Cost of `Emplace(pos, ...)` read off the operations each source path
performs, as the pair (relocations of existing elements, moves of the
inserted value beyond its initial construction):
* `pos == end()` with spare capacity: direct placement-new — `(0, 0)`.
* `pos == end()` when full: `EmplaceBack` relocates all `size_` elements and
  constructs the element directly in the new block — `(size_, 0)`.
* spare capacity, `pos < end()`: one move of the last element into the raw
  tail slot, `last - pos` move assignments by `std::move_backward`, and one
  move of the temporary into slot `pos` — `(size_ - pos, 1)`.
* full, `pos < end()`: `CopyOrMove` relocates `pos` then `size_ - pos`
  elements; the element is constructed directly in the new block —
  `(size_, 0)`. -/
def Vector.EmplaceCost (v : Vector α) (pos : Nat) : Nat × Nat :=
  if pos = v.size_ then
    if v.size_ = v.Capacity then (v.size_, 0) else (0, 0)
  else
    if v.size_ ≠ v.Capacity then (1 + (v.size_ - 1 - pos), 1)
    else (v.size_, 0)

/-- The source indices of the existing elements `Reserve(new_capacity)`
relocates, in relocation order: none on the no-op path, and the single
left-to-right `CopyOrMove(data_.GetAddress(), new_data.GetAddress(), size_)`
pass — indices `0, 1, ..., size_ - 1` — on the growth path. -/
def Vector.ReserveTouches (v : Vector α) (new_capacity : Nat) : List Nat :=
  if new_capacity ≤ v.data_.Capacity then [] else List.range v.size_

/-- One step of the spec scenario "N sequential appends of 0,1,2,...": a
`PushBack`/`EmplaceBack` of value `i` under the non-failing relocation policy
(`useMove` holds for a numeric type; no oracle call fails). -/
def appendStep (v : Vector Nat) (i : Nat) : Vector Nat :=
  match v.EmplaceBack true (fun _ => false) (fun _ => .ok i) with
  | .ok (w, _) => w
  | .error w => w

/-- N sequential appends starting from the default-constructed (empty,
zero-capacity) vector. -/
def appendN (n : Nat) : Vector Nat :=
  (List.range n).foldl appendStep Vector.mkDefault

/-- All states a `Vector` can be in at the exit of a public operation
(normal or exceptional), under the operation's documented preconditions:
the constructors enumerate every public operation of the source and its
exits, with the asserted position bounds and the entry invariant of the
operated-on vectors as hypotheses. -/
inductive Exit {α : Type} : Vector α → Prop
  | mkDefaultE : Exit (Vector.mkDefault : Vector α)
  | mkSizedE [Inhabited α] (n : Nat) : Exit (Vector.mkSized α n)
  | copyCtorOk (o : Nat → Bool) (other w : Vector α) :
      other.copyCtor o = .ok w → Exit w
  | moveCtorDst (other : Vector α) : other.Inv → Exit (Vector.moveCtor other).1
  | moveCtorSrc (other : Vector α) : Exit (Vector.moveCtor other).2
  | copyAssignOk (o : Nat → Bool) (v rhs w : Vector α) :
      v.Inv → v.copyAssign o rhs = .ok w → Exit w
  | copyAssignErr (o : Nat → Bool) (v rhs w : Vector α) :
      v.Inv → v.copyAssign o rhs = .error w → Exit w
  | moveAssignDst (v rhs : Vector α) : rhs.Inv → Exit (Vector.moveAssign v rhs).1
  | moveAssignSrc (v rhs : Vector α) : Exit (Vector.moveAssign v rhs).2
  | swapFst (a b : Vector α) : b.Inv → Exit (Vector.SwapOp a b).1
  | swapSnd (a b : Vector α) : a.Inv → Exit (Vector.SwapOp a b).2
  | reserveOk (useMove : Bool) (o : Nat → Bool) (v w : Vector α) (k : Nat) :
      v.Inv → v.Reserve useMove o k = .ok w → Exit w
  | reserveErr (useMove : Bool) (o : Nat → Bool) (v w : Vector α) (k : Nat) :
      v.Inv → v.Reserve useMove o k = .error w → Exit w
  | resizeOk [Inhabited α] (useMove : Bool) (o : Nat → Bool) (v w : Vector α) (n : Nat) :
      v.Inv → v.Resize useMove o n = .ok w → Exit w
  | resizeErr [Inhabited α] (useMove : Bool) (o : Nat → Bool) (v w : Vector α) (n : Nat) :
      v.Inv → v.Resize useMove o n = .error w → Exit w
  | popBackE (v : Vector α) : v.Inv → Exit v.PopBack
  | emplaceBackOk (useMove : Bool) (o : Nat → Bool) (v w : Vector α)
      (mkF : RawMemory α → Except Unit α) (elem : α) :
      v.Inv → v.EmplaceBack useMove o mkF = .ok (w, elem) → Exit w
  | emplaceBackErr (useMove : Bool) (o : Nat → Bool) (v w : Vector α)
      (mkF : RawMemory α → Except Unit α) :
      v.Inv → v.EmplaceBack useMove o mkF = .error w → Exit w
  | pushBackOk (useMove : Bool) (o : Nat → Bool) (v w : Vector α) (mk : Except Unit α) :
      v.Inv → v.PushBack useMove o mk = .ok w → Exit w
  | pushBackErr (useMove : Bool) (o : Nat → Bool) (v w : Vector α) (mk : Except Unit α) :
      v.Inv → v.PushBack useMove o mk = .error w → Exit w
  | emplaceOk (useMove : Bool) (o : Nat → Bool) (v w : Vector α) (pos i : Nat)
      (mkF : RawMemory α → Except Unit α) :
      v.Inv → pos ≤ v.size_ → v.Emplace useMove o pos mkF = .ok (w, i) → Exit w
  | emplaceErr (useMove : Bool) (o : Nat → Bool) (v w : Vector α) (pos : Nat)
      (mkF : RawMemory α → Except Unit α) :
      v.Inv → pos ≤ v.size_ → v.Emplace useMove o pos mkF = .error w → Exit w
  | insertOk (useMove : Bool) (o : Nat → Bool) (v w : Vector α) (pos i : Nat)
      (mk : Except Unit α) :
      v.Inv → pos ≤ v.size_ → v.Insert useMove o pos mk = .ok (w, i) → Exit w
  | insertErr (useMove : Bool) (o : Nat → Bool) (v w : Vector α) (pos : Nat)
      (mk : Except Unit α) :
      v.Inv → pos ≤ v.size_ → v.Insert useMove o pos mk = .error w → Exit w
  | eraseE (v : Vector α) (pos : Nat) :
      v.Inv → pos ≤ v.size_ → Exit (v.Erase pos).1

/-! ### Buffer toolkit -/

theorem take_set_succ (buf : List β) (dst : Nat) (v : β) (h : dst < buf.length) :
    (buf.set dst v).take (dst + 1) = buf.take dst ++ [v] := by
  rw [List.set_eq_take_cons_drop v h, List.take_append_eq_append_take]
  have h1 : (List.take dst buf).length = dst := by
    simp [List.length_take, Nat.min_eq_left (Nat.le_of_lt h)]
  rw [List.take_take, h1]
  have h2 : dst + 1 - dst = 1 := by omega
  have h3 : min (dst + 1) dst = dst := by omega
  simp [h2, h3]

theorem drop_set_of_lt (buf : List β) (dst : Nat) (v : β) (j : Nat) (h : dst < j) :
    (buf.set dst v).drop j = buf.drop j := by
  rw [List.drop_set, if_pos h]

theorem length_listWriteN (vals : List (Option α)) :
    ∀ buf dst, (listWriteN buf dst vals).length = buf.length := by
  induction vals with
  | nil => intro buf dst; rfl
  | cons v rest ih =>
    intro buf dst
    rw [listWriteN, ih, List.length_set]

theorem listWriteN_eq (vals : List (Option α)) :
    ∀ buf dst, dst + vals.length ≤ buf.length →
      listWriteN buf dst vals = buf.take dst ++ vals ++ buf.drop (dst + vals.length) := by
  induction vals with
  | nil => intro buf dst h; simp [listWriteN]
  | cons v rest ih =>
    intro buf dst h
    have hd : dst < buf.length := by simp at h; omega
    rw [listWriteN, ih _ _ (by simp [List.length_set] at h ⊢; omega)]
    rw [take_set_succ buf dst v hd, drop_set_of_lt buf dst v _ (by omega)]
    have harith : dst + 1 + rest.length = dst + (v :: rest).length := by simp; omega
    rw [harith]
    simp

/-! ### RawMemory toolkit -/

theorem Capacity_set (m : RawMemory α) (i : Nat) (v : Option α) :
    (m.set i v).Capacity = m.Capacity := by
  simp [RawMemory.set, RawMemory.Capacity]

theorem Capacity_writeN (m : RawMemory α) (dst : Nat) (vals : List (Option α)) :
    (m.writeN dst vals).Capacity = m.Capacity := by
  simp [RawMemory.writeN, RawMemory.Capacity, length_listWriteN]

theorem Capacity_destroyN (m : RawMemory α) (start count : Nat) :
    (m.destroyN start count).Capacity = m.Capacity := by
  simp [RawMemory.destroyN, Capacity_writeN]

theorem Capacity_Allocate (n : Nat) : (RawMemory.Allocate α n).Capacity = n := by
  simp [RawMemory.Allocate, RawMemory.Capacity]

theorem length_readN (m : RawMemory α) (start count : Nat) :
    (m.readN start count).length = min count (m.Capacity - start) := by
  simp [RawMemory.readN, RawMemory.Capacity]

theorem writeN_buffer (m : RawMemory α) (dst : Nat) (vals : List (Option α))
    (h : dst + vals.length ≤ m.Capacity) :
    (m.writeN dst vals).buffer_ =
      m.buffer_.take dst ++ vals ++ m.buffer_.drop (dst + vals.length) :=
  listWriteN_eq vals m.buffer_ dst h

/-! ### Fallible-copy toolkit -/

theorem uninitializedCopyN_ok (o : Nat → Bool) (vals : List (Option α)) :
    ∀ k tgt dst tgt2 k2, uninitializedCopyN o k vals tgt dst = .ok (tgt2, k2) →
      tgt2 = tgt.writeN dst vals := by
  induction vals with
  | nil =>
    intro k tgt dst tgt2 k2 h
    simp [uninitializedCopyN] at h
    simp [h.1, RawMemory.writeN, listWriteN]
  | cons v rest ih =>
    intro k tgt dst tgt2 k2 h
    cases v with
    | none =>
      rw [uninitializedCopyN] at h
      cases hrec : uninitializedCopyN o k rest (tgt.set dst none) (dst + 1) with
      | ok r =>
        obtain ⟨r1, r2⟩ := r
        rw [hrec] at h
        simp at h
        rw [h.1, h.2] at hrec
        exact ih k (tgt.set dst none) (dst + 1) tgt2 k2 hrec
      | error e => rw [hrec] at h; simp at h
    | some a =>
      rw [uninitializedCopyN] at h
      unfold copyOne at h
      by_cases hok : o k
      · simp [hok] at h
      · simp [hok] at h
        cases hrec : uninitializedCopyN o (k + 1) rest (tgt.set dst (some a)) (dst + 1) with
        | ok r =>
          obtain ⟨r1, r2⟩ := r
          rw [hrec] at h
          simp at h
          rw [h.1, h.2] at hrec
          exact ih (k + 1) (tgt.set dst (some a)) (dst + 1) tgt2 k2 hrec
        | error e => rw [hrec] at h; simp at h

theorem uninitializedCopyN_error_capacity (o : Nat → Bool) (vals : List (Option α)) :
    ∀ k tgt dst tgt2, uninitializedCopyN o k vals tgt dst = .error tgt2 →
      tgt2.Capacity = tgt.Capacity := by
  induction vals with
  | nil => intro k tgt dst tgt2 h; simp [uninitializedCopyN] at h
  | cons v rest ih =>
    intro k tgt dst tgt2 h
    cases v with
    | none =>
      rw [uninitializedCopyN] at h
      cases hrec : uninitializedCopyN o k rest (tgt.set dst none) (dst + 1) with
      | ok r => rw [hrec] at h; simp at h
      | error e =>
        rw [hrec] at h
        simp at h
        rw [← h, Capacity_set]
        rw [ih k (tgt.set dst none) (dst + 1) e hrec, Capacity_set]
    | some a =>
      rw [uninitializedCopyN] at h
      unfold copyOne at h
      by_cases hok : o k
      · simp [hok] at h; rw [← h]
      · simp [hok] at h
        cases hrec : uninitializedCopyN o (k + 1) rest (tgt.set dst (some a)) (dst + 1) with
        | ok r => rw [hrec] at h; simp at h
        | error e =>
          rw [hrec] at h
          simp at h
          rw [← h, Capacity_set]
          rw [ih (k + 1) (tgt.set dst (some a)) (dst + 1) e hrec, Capacity_set]

theorem assignN_ok (o : Nat → Bool) (vals : List (Option α)) :
    ∀ k m i m2 k2, assignN o k vals m i = .ok (m2, k2) → m2 = m.writeN i vals := by
  induction vals with
  | nil =>
    intro k m i m2 k2 h
    simp [assignN] at h
    simp [h.1, RawMemory.writeN, listWriteN]
  | cons v rest ih =>
    intro k m i m2 k2 h
    cases v with
    | none =>
      rw [assignN] at h
      exact ih k (m.set i none) (i + 1) m2 k2 h
    | some a =>
      rw [assignN] at h
      unfold copyOne at h
      by_cases hok : o k
      · simp [hok] at h
      · simp [hok] at h
        exact ih (k + 1) (m.set i (some a)) (i + 1) m2 k2 h

theorem assignN_error_capacity (o : Nat → Bool) (vals : List (Option α)) :
    ∀ k m i m2, assignN o k vals m i = .error m2 → m2.Capacity = m.Capacity := by
  induction vals with
  | nil => intro k m i m2 h; simp [assignN] at h
  | cons v rest ih =>
    intro k m i m2 h
    cases v with
    | none =>
      rw [assignN] at h
      rw [ih k (m.set i none) (i + 1) m2 h, Capacity_set]
    | some a =>
      rw [assignN] at h
      unfold copyOne at h
      by_cases hok : o k
      · simp [hok] at h; rw [← h]
      · simp [hok] at h
        rw [ih (k + 1) (m.set i (some a)) (i + 1) m2 h, Capacity_set]

theorem CopyOrMove_ok (useMove : Bool) (o : Nat → Bool) (k : Nat)
    (fm : RawMemory α) (fromIdx : Nat) (tgt : RawMemory α) (toIdx count : Nat)
    (f2 t2 : RawMemory α) (k2 : Nat)
    (h : CopyOrMove useMove o k fm fromIdx tgt toIdx count = .ok (f2, t2, k2)) :
    f2 = fm.destroyN fromIdx count ∧ t2 = tgt.writeN toIdx (fm.readN fromIdx count) := by
  unfold CopyOrMove at h
  cases useMove with
  | true => simp at h; exact ⟨h.1.symm, h.2.1.symm⟩
  | false =>
    simp only [Bool.false_eq_true, if_false] at h
    cases hrec : uninitializedCopyN o k (fm.readN fromIdx count) tgt toIdx with
    | error e => rw [hrec] at h; simp at h
    | ok r =>
      obtain ⟨r1, r2⟩ := r
      rw [hrec] at h
      simp at h
      refine ⟨h.1.symm, ?_⟩
      rw [← h.2.1]
      exact uninitializedCopyN_ok o (fm.readN fromIdx count) k tgt toIdx r1 r2 hrec

theorem CopyOrMove_error (useMove : Bool) (o : Nat → Bool) (k : Nat)
    (fm : RawMemory α) (fromIdx : Nat) (tgt : RawMemory α) (toIdx count : Nat)
    (f2 t2 : RawMemory α)
    (h : CopyOrMove useMove o k fm fromIdx tgt toIdx count = .error (f2, t2)) :
    f2 = fm ∧ t2.Capacity = tgt.Capacity ∧ useMove = false := by
  unfold CopyOrMove at h
  cases useMove with
  | true => simp at h
  | false =>
    simp only [Bool.false_eq_true, if_false] at h
    cases hrec : uninitializedCopyN o k (fm.readN fromIdx count) tgt toIdx with
    | error e =>
      rw [hrec] at h
      simp at h
      exact ⟨h.1.symm, by
        rw [← h.2]
        exact uninitializedCopyN_error_capacity o (fm.readN fromIdx count) k tgt toIdx e hrec,
        rfl⟩
    | ok r => rw [hrec] at h; simp at h

/-! ### Vector-level bridge lemmas -/

theorem WF_getElem_isSome (v : Vector α) (hWF : v.WF) (i : Nat) (hi : i < v.size_)
    (hlen : i < v.data_.buffer_.length) : (v.data_.buffer_[i]).isSome := by
  have hmem : v.data_.buffer_[i] ∈ v.data_.buffer_.take v.size_ := by
    have hlt : i < (v.data_.buffer_.take v.size_).length := by
      simp [List.length_take]
      omega
    have := List.getElem_take v.data_.buffer_ (j := v.size_) (i := i) (h := hlt)
    rw [← this]
    exact List.getElem_mem hlt
  exact hWF.2 _ hmem

theorem WF_get_some (v : Vector α) (hWF : v.WF) (i : Nat) (hi : i < v.size_) :
    ∃ a, v.data_.get i = some a := by
  have hlen : i < v.data_.buffer_.length :=
    Nat.lt_of_lt_of_le hi hWF.1
  have h := WF_getElem_isSome v hWF i hi hlen
  rw [Option.isSome_iff_exists] at h
  obtain ⟨a, ha⟩ := h
  exact ⟨a, by rw [RawMemory.get, List.getD_eq_getElem _ _ hlen, ha]⟩

/-- An exceptional exit of `Reserve` leaves the vector exactly as it was. -/
theorem Reserve_error_eq (useMove : Bool) (o : Nat → Bool) (v e : Vector α) (k : Nat)
    (h : v.Reserve useMove o k = .error e) : e = v := by
  unfold Vector.Reserve at h
  split at h
  · exact absurd h (by simp)
  · split at h
    · next fm snd heq =>
      simp only [Except.error.injEq] at h
      obtain ⟨hf, -, -⟩ := CopyOrMove_error useMove o 0 v.data_ 0
        (RawMemory.Allocate α k) 0 v.size_ fm snd heq
      rw [← h, hf]
    · exact absurd h (by simp)

/-- An exceptional exit of `EmplaceBack` leaves the vector exactly as it
was. -/
theorem EmplaceBack_error_eq (useMove : Bool) (o : Nat → Bool) (v e : Vector α)
    (mkF : RawMemory α → Except Unit α)
    (h : v.EmplaceBack useMove o mkF = .error e) : e = v := by
  unfold Vector.EmplaceBack at h
  split at h
  · split at h
    · simp only [Except.error.injEq] at h
      exact h.symm
    · split at h
      · simp only [Except.error.injEq] at h
        exact h.symm
      · exact absurd h (by simp)
  · split at h
    · simp only [Except.error.injEq] at h
      exact h.symm
    · exact absurd h (by simp)

/-- A successful copy construction fills a fresh block of `other.size_`
slots with a copy of the live slots of `other`. -/
theorem copyCtor_ok_eq (o : Nat → Bool) (other w : Vector α)
    (h : other.copyCtor o = .ok w) :
    w.data_ = (RawMemory.Allocate α other.size_).writeN 0 (other.data_.readN 0 other.size_) ∧
    w.size_ = other.size_ := by
  unfold Vector.copyCtor at h
  split at h
  · exact absurd h (by simp)
  · next m k2 heq =>
    simp only [Except.ok.injEq] at h
    have hm := uninitializedCopyN_ok o (other.data_.readN 0 other.size_) 0
      (RawMemory.Allocate α other.size_) 0 m k2 heq
    rw [← h]
    exact ⟨hm, rfl⟩

/-- Writing the first `n` live slots of `src` into a fresh block (of
capacity at least `n`) reproduces those slots exactly. -/
theorem writeN_fresh_take (src : RawMemory α) (n cap2 : Nat)
    (hn : n ≤ src.Capacity) (hcap : n ≤ cap2) :
    ((RawMemory.Allocate α cap2).writeN 0 (src.readN 0 n)).buffer_.take n =
      src.buffer_.take n := by
  have hvals : (src.readN 0 n).length = n := by
    rw [length_readN]; omega
  rw [writeN_buffer _ _ _ (by rw [Capacity_Allocate]; omega)]
  show (List.take 0 (List.replicate cap2 none) ++ src.readN 0 n ++
    List.drop (0 + (src.readN 0 n).length) (List.replicate cap2 none)).take n = _
  simp only [List.take_zero, List.nil_append, hvals, Nat.zero_add]
  rw [List.take_append_eq_append_take, hvals, Nat.sub_self, List.take_zero, List.append_nil,
    List.take_of_length_le (le_of_eq hvals)]
  simp [RawMemory.readN]

theorem take_set_of_le (l : List β) (i : Nat) (y : β) (t : Nat) (h : t ≤ i) :
    (l.set i y).take t = l.take t := by
  induction l generalizing i t with
  | nil => simp
  | cons b bs ih =>
    cases i with
    | zero =>
      have ht : t = 0 := by omega
      simp [ht]
    | succ j =>
      cases t with
      | zero => simp
      | succ s =>
        simp only [List.set, List.take]
        rw [ih j s (by omega)]

/-- Under well-formedness, the first `j ≤ size` slots are all live, so
collapsing them to their values loses nothing of the length. -/
theorem toList_take_length (v : Vector α) (hWF : v.WF) (j : Nat) (hj : j ≤ v.size_) :
    ((v.data_.buffer_.take j).reduceOption).length = j := by
  have hL : j ≤ v.data_.buffer_.length := le_trans hj hWF.1
  have hall : ∀ x ∈ v.data_.buffer_.take j, x.isSome := by
    intro x hx
    apply hWF.2
    have hsub : v.data_.buffer_.take j = (v.data_.buffer_.take v.size_).take j := by
      rw [List.take_take, Nat.min_eq_left hj]
    rw [hsub] at hx
    exact List.take_subset j _ hx
  rw [List.reduceOption_length_eq_iff.2 hall, List.length_take]
  omega

theorem get_set_self (m : RawMemory α) (i : Nat) (x : Option α) (h : i < m.Capacity) :
    (m.set i x).get i = x := by
  show (m.buffer_.set i x).getD i none = x
  rw [List.getD_eq_getElem _ _ (by simp [List.length_set]; exact h)]
  exact List.getElem_set_self _

theorem appendN_succ (N : Nat) : appendN (N + 1) = appendStep (appendN N) N := by
  rw [appendN, appendN, List.range_succ, List.foldl_append]
  rfl

theorem appendStep_eq_full (v : Vector Nat) (i : Nat) (h : v.size_ = v.Capacity) :
    appendStep v i
      = ⟨((RawMemory.Allocate Nat (if v.size_ = 0 then 1 else v.size_ * 2)).set v.size_
          (some i)).writeN 0 (v.data_.readN 0 v.size_), v.size_ + 1⟩ := by
  unfold appendStep Vector.EmplaceBack
  rw [if_pos h]
  rfl

theorem appendStep_eq_spare (v : Vector Nat) (i : Nat) (h : ¬ v.size_ = v.Capacity) :
    appendStep v i = ⟨v.data_.set v.size_ (some i), v.size_ + 1⟩ := by
  unfold appendStep Vector.EmplaceBack
  rw [if_neg h]

theorem appendStep_size (v : Vector Nat) (i : Nat) :
    (appendStep v i).size_ = v.size_ + 1 := by
  by_cases h : v.size_ = v.Capacity
  · rw [appendStep_eq_full v i h]
  · rw [appendStep_eq_spare v i h]

theorem appendStep_cap_full (v : Vector Nat) (i : Nat) (h : v.size_ = v.Capacity) :
    (appendStep v i).Capacity = if v.size_ = 0 then 1 else v.size_ * 2 := by
  rw [appendStep_eq_full v i h]
  show (((RawMemory.Allocate Nat _).set v.size_ (some i)).writeN 0
    (v.data_.readN 0 v.size_)).Capacity = _
  rw [Capacity_writeN, Capacity_set, Capacity_Allocate]

theorem appendStep_cap_spare (v : Vector Nat) (i : Nat) (h : ¬ v.size_ = v.Capacity) :
    (appendStep v i).Capacity = v.Capacity := by
  rw [appendStep_eq_spare v i h]
  show (v.data_.set v.size_ (some i)).Capacity = _
  rw [Capacity_set]
  rfl

/-- The size and capacity of the vector after `N` appends from empty: the
size is `N`; the capacity is 0 for `N = 0` and otherwise the unique power of
two in the half-open interval `[N, 2N)`. -/
theorem appendN_size_cap (N : Nat) : (appendN N).size_ = N ∧
    (N = 0 → (appendN N).Capacity = 0) ∧
    (1 ≤ N → ∃ t, (appendN N).Capacity = 2 ^ t ∧ N ≤ 2 ^ t ∧ 2 ^ t < 2 * N) := by
  induction N with
  | zero => exact ⟨rfl, fun _ => rfl, fun hc => absurd hc (by omega)⟩
  | succ M ih =>
    obtain ⟨ihsz, ihzero, ihpow⟩ := ih
    rw [appendN_succ]
    refine ⟨by rw [appendStep_size, ihsz], fun hc => absurd hc (by omega), fun _ => ?_⟩
    by_cases hM : M = 0
    · subst hM
      have hfull : (appendN 0).size_ = (appendN 0).Capacity := by
        rw [ihsz, ihzero rfl]
      refine ⟨0, ?_, by omega, by omega⟩
      rw [appendStep_cap_full _ _ hfull, ihsz]
      simp
    · obtain ⟨t, hcap, hle, hlt⟩ := ihpow (by omega)
      by_cases hfull : (appendN M).size_ = (appendN M).Capacity
      · have hM2 : M = 2 ^ t := by omega
        refine ⟨t + 1, ?_, ?_, ?_⟩
        · rw [appendStep_cap_full _ _ hfull, if_neg (by rw [ihsz]; omega), ihsz,
            Nat.pow_succ]
          omega
        · rw [Nat.pow_succ]
          omega
        · rw [Nat.pow_succ]
          omega
      · have hMlt : M < 2 ^ t := by omega
        refine ⟨t, ?_, by omega, by omega⟩
        rw [appendStep_cap_spare _ _ hfull, hcap]

/-- The buffer produced by the spare-capacity insertion path: move the last
element into the raw tail slot, shift `[pos, n-1)` one slot right, write the
temporary into slot `pos` — in the live region this inserts `a` before the
old slot `pos` and keeps everything else in order. -/
theorem spare_insert_take (B : List (Option α)) (n pos : Nat) (a : α)
    (hn : n < B.length) (hpos : pos < n) :
    ((listWriteN (B.set n (B.getD (n - 1) none)) (pos + 1)
        (((B.set n (B.getD (n - 1) none)).drop pos).take (n - 1 - pos))).set pos
          (some a)).take (n + 1)
      = B.take pos ++ some a :: (B.drop pos).take (n - pos) := by
  have hn1 : n - 1 < B.length := by omega
  have hx : B.getD (n - 1) none = B[n - 1] := List.getD_eq_getElem B none hn1
  have hvals : ((B.set n (B.getD (n - 1) none)).drop pos).take (n - 1 - pos)
      = (B.drop pos).take (n - 1 - pos) := by
    rw [List.drop_set, if_neg (by omega), take_set_of_le _ _ _ _ (by omega)]
  have hvalslen : ((B.drop pos).take (n - 1 - pos)).length = n - 1 - pos := by
    simp [List.length_take, List.length_drop]
    omega
  rw [hvals]
  rw [listWriteN_eq _ _ _ (by simp [List.length_set, hvalslen]; omega)]
  rw [hvalslen]
  have htakeM1 : (B.set n (B.getD (n - 1) none)).take (pos + 1) = B.take (pos + 1) :=
    take_set_of_le _ _ _ _ (by omega)
  have hdropM1 : (B.set n (B.getD (n - 1) none)).drop (pos + 1 + (n - 1 - pos))
      = B.getD (n - 1) none :: B.drop (n + 1) := by
    have harith : pos + 1 + (n - 1 - pos) = n := by omega
    rw [harith, List.drop_set, if_neg (by omega), Nat.sub_self,
      List.drop_eq_getElem_cons hn]
    rfl
  rw [htakeM1, hdropM1]
  rw [List.append_assoc]
  rw [List.set_append, if_pos (by simp [List.length_take]; omega)]
  have hsetTake : (B.take (pos + 1)).set pos (some a) = B.take pos ++ [some a] := by
    rw [List.set_eq_take_cons_drop (some a) (by simp [List.length_take]; omega)]
    rw [List.take_take, Nat.min_eq_left (by omega)]
    rw [List.drop_eq_nil_of_le (by simp [List.length_take])]
  rw [hsetTake]
  have hVx : (B.drop pos).take (n - pos)
      = (B.drop pos).take (n - 1 - pos) ++ [B.getD (n - 1) none] := by
    have hnp : n - pos = (n - 1 - pos) + 1 := by omega
    rw [hnp, List.take_succ]
    rw [List.getElem?_eq_getElem (by simp [List.length_drop]; omega)]
    have hidx : pos + (n - 1 - pos) = n - 1 := by omega
    rw [List.getElem_drop B, hx]
    simp [hidx]
  rw [hVx]
  rw [List.append_assoc, List.take_append_eq_append_take]
  have hlenA : (B.take pos).length = pos := by simp [List.length_take]; omega
  rw [hlenA]
  have h1 : n + 1 - pos = (n - 1 - pos) + 2 := by omega
  rw [List.take_of_length_le (by simp [List.length_take]; omega), h1]
  have h2 : ∀ V D : List (Option α), V.length = n - 1 - pos →
      List.take ((n - 1 - pos) + 2) (some a :: (V ++ B.getD (n - 1) none :: D))
        = some a :: (V ++ [B.getD (n - 1) none]) := by
    intro V D hV
    rw [List.take_succ_cons]
    congr 1
    rw [List.take_append_eq_append_take, List.take_of_length_le (by omega), hV]
    have h3 : n - 1 - pos + 1 - (n - 1 - pos) = 1 := by omega
    rw [h3]
    rfl
  rw [List.singleton_append]
  rw [h2 _ _ hvalslen]

/-! ### Invariant preservation helpers -/

theorem PopBack_inv (v : Vector α) (hInv : v.Inv) : v.PopBack.Inv := by
  unfold Vector.PopBack
  split
  · show v.size_ - 1 ≤ (v.data_.destroyN (v.size_ - 1) 1).Capacity
    rw [Capacity_destroyN]
    have h2 : v.size_ ≤ v.data_.Capacity := hInv
    omega
  · exact hInv

theorem Reserve_ok_spec (useMove : Bool) (o : Nat → Bool) (v w : Vector α) (k : Nat)
    (h : v.Reserve useMove o k = .ok w) :
    w.size_ = v.size_ ∧ w.Capacity = max v.Capacity k := by
  unfold Vector.Reserve at h
  split at h
  · next hk =>
    simp only [Except.ok.injEq] at h
    subst h
    have hk2 : k ≤ v.Capacity := hk
    exact ⟨rfl, by omega⟩
  · next hk =>
    split at h
    · exact absurd h (by simp)
    · next f2 nd k2 heq =>
      simp only [Except.ok.injEq] at h
      obtain ⟨-, hnd⟩ := CopyOrMove_ok useMove o 0 v.data_ 0
        (RawMemory.Allocate α k) 0 v.size_ f2 nd k2 heq
      rw [← h]
      refine ⟨rfl, ?_⟩
      show nd.Capacity = max v.Capacity k
      rw [hnd, Capacity_writeN, Capacity_Allocate]
      have hc : v.Capacity = v.data_.Capacity := rfl
      omega

theorem EmplaceBack_ok_inv (useMove : Bool) (o : Nat → Bool) (v w : Vector α)
    (mkF : RawMemory α → Except Unit α) (elem : α)
    (hInv : v.Inv) (h : v.EmplaceBack useMove o mkF = .ok (w, elem)) : w.Inv := by
  have hc : v.Capacity = v.data_.Capacity := rfl
  have hInv2 : v.size_ ≤ v.Capacity := hInv
  unfold Vector.EmplaceBack at h
  split at h
  · next hfull =>
    split at h
    · exact absurd h (by simp)
    · split at h
      · exact absurd h (by simp)
      · next f2 nd k2 heq =>
        simp only [Except.ok.injEq, Prod.mk.injEq] at h
        obtain ⟨hw, -⟩ := h
        obtain ⟨-, hnd⟩ := CopyOrMove_ok useMove o 0 v.data_ 0 _ 0 v.size_ f2 nd k2 heq
        rw [← hw]
        show v.size_ + 1 ≤ nd.Capacity
        rw [hnd, Capacity_writeN, Capacity_set, Capacity_Allocate]
        split
        · omega
        · omega
  · next hfull =>
    split at h
    · exact absurd h (by simp)
    · simp only [Except.ok.injEq, Prod.mk.injEq] at h
      obtain ⟨hw, -⟩ := h
      rw [← hw]
      show v.size_ + 1 ≤ (v.data_.set v.size_ _).Capacity
      rw [Capacity_set]
      omega

theorem PushBack_exits_inv (useMove : Bool) (o : Nat → Bool) (v w : Vector α)
    (mk : Except Unit α) (hInv : v.Inv) :
    (v.PushBack useMove o mk = .ok w → w.Inv) ∧
    (v.PushBack useMove o mk = .error w → w.Inv) := by
  constructor
  · intro h
    unfold Vector.PushBack at h
    split at h
    · exact absurd h (by simp)
    · next v2 elem heq =>
      simp only [Except.ok.injEq] at h
      rw [← h]
      exact EmplaceBack_ok_inv useMove o v v2 _ elem hInv heq
  · intro h
    unfold Vector.PushBack at h
    split at h
    · next e heq =>
      simp only [Except.error.injEq] at h
      rw [← h, EmplaceBack_error_eq useMove o v e _ heq]
      exact hInv
    · exact absurd h (by simp)

theorem Emplace_error_eq (useMove : Bool) (o : Nat → Bool) (v e : Vector α) (pos : Nat)
    (mkF : RawMemory α → Except Unit α)
    (h : v.Emplace useMove o pos mkF = .error e) : e = v := by
  unfold Vector.Emplace at h
  split at h
  · split at h
    · next e2 heq =>
      simp only [Except.error.injEq] at h
      rw [← h]
      exact EmplaceBack_error_eq useMove o v e2 mkF heq
    · exact absurd h (by simp)
  · split at h
    · split at h
      · simp only [Except.error.injEq] at h
        exact h.symm
      · exact absurd h (by simp)
    · split at h
      · simp only [Except.error.injEq] at h
        exact h.symm
      · split at h
        · simp only [Except.error.injEq] at h
          exact h.symm
        · split at h
          · exact absurd h (by simp)
          · exact absurd h (by simp)

theorem Emplace_ok_inv (useMove : Bool) (o : Nat → Bool) (v w : Vector α) (pos i : Nat)
    (mkF : RawMemory α → Except Unit α)
    (hInv : v.Inv) (hpos : pos ≤ v.size_)
    (h : v.Emplace useMove o pos mkF = .ok (w, i)) : w.Inv := by
  have hc : v.Capacity = v.data_.Capacity := rfl
  have hInv2 : v.size_ ≤ v.Capacity := hInv
  unfold Vector.Emplace at h
  split at h
  · split at h
    · exact absurd h (by simp)
    · next v2 elem heq =>
      simp only [Except.ok.injEq, Prod.mk.injEq] at h
      obtain ⟨hw, -⟩ := h
      rw [← hw]
      exact EmplaceBack_ok_inv useMove o v v2 mkF elem hInv heq
  · next hend =>
    split at h
    · next hne =>
      split at h
      · exact absurd h (by simp)
      · simp only [Except.ok.injEq, Prod.mk.injEq] at h
        obtain ⟨hw, -⟩ := h
        rw [← hw]
        show v.size_ + 1 ≤ (((v.data_.set v.size_ _).writeN (pos + 1) _).set pos _).Capacity
        rw [Capacity_set, Capacity_writeN, Capacity_set]
        have hne2 : v.size_ ≠ v.Capacity := hne
        omega
    · next hne =>
      have hfull : v.size_ = v.Capacity := by
        by_contra hcon
        exact hne hcon
      have hposlt : pos < v.size_ := by omega
      split at h
      · exact absurd h (by simp)
      · split at h
        · exact absurd h (by simp)
        · next f2 nd2 k1 heq1 =>
          obtain ⟨-, hnd2⟩ := CopyOrMove_ok useMove o 0 v.data_ 0 _ 0 pos f2 nd2 k1 heq1
          have hnd2cap : nd2.Capacity = (if v.size_ = 0 then 1 else v.size_ * 2) := by
            rw [hnd2, Capacity_writeN, Capacity_set, Capacity_Allocate]
          split at h
          · next f3 nd3 heq2 =>
            obtain ⟨-, hnd3cap, -⟩ := CopyOrMove_error useMove o k1 f2 pos nd2 (pos + 1)
              (v.size_ - pos) f3 nd3 heq2
            simp only [Except.ok.injEq, Prod.mk.injEq] at h
            obtain ⟨hw, -⟩ := h
            rw [← hw]
            show v.size_ + 1 ≤ (nd3.destroyN 0 (pos + 1)).Capacity
            rw [Capacity_destroyN, hnd3cap, hnd2cap]
            split
            · omega
            · omega
          · next f3 nd3 k3 heq2 =>
            obtain ⟨-, hnd3⟩ := CopyOrMove_ok useMove o k1 f2 pos nd2 (pos + 1)
              (v.size_ - pos) f3 nd3 k3 heq2
            simp only [Except.ok.injEq, Prod.mk.injEq] at h
            obtain ⟨hw, -⟩ := h
            rw [← hw]
            show v.size_ + 1 ≤ nd3.Capacity
            rw [hnd3, Capacity_writeN, hnd2cap]
            split
            · omega
            · omega

theorem copyAssign_exits_inv (o : Nat → Bool) (v rhs w : Vector α) (hInv : v.Inv) :
    (v.copyAssign o rhs = .ok w → w.Inv) ∧
    (v.copyAssign o rhs = .error w → w.Inv) := by
  have hc : v.Capacity = v.data_.Capacity := rfl
  have hInv2 : v.size_ ≤ v.Capacity := hInv
  constructor
  · intro h
    unfold Vector.copyAssign at h
    split at h
    · next hgt =>
      split at h
      · exact absurd h (by simp)
      · next rhsCopy heq =>
        simp only [Except.ok.injEq] at h
        obtain ⟨hdata, -⟩ := copyCtor_ok_eq o rhs rhsCopy heq
        rw [← h]
        show rhs.size_ ≤ rhsCopy.data_.Capacity
        rw [hdata, Capacity_writeN, Capacity_Allocate]
    · next hle =>
      split at h
      · split at h
        · exact absurd h (by simp)
        · next m k2 heq =>
          simp only [Except.ok.injEq] at h
          have hm := assignN_ok o (rhs.data_.readN 0 rhs.size_) 0 v.data_ 0 m k2 heq
          rw [← h]
          show rhs.size_ ≤ (m.destroyN rhs.size_ (v.size_ - rhs.size_)).Capacity
          rw [Capacity_destroyN, hm, Capacity_writeN]
          omega
      · split at h
        · exact absurd h (by simp)
        · next m k2 heq =>
          split at h
          · exact absurd h (by simp)
          · next m2 k3 heq2 =>
            simp only [Except.ok.injEq] at h
            have hm := assignN_ok o (rhs.data_.readN 0 v.size_) 0 v.data_ 0 m k2 heq
            have hm2 := uninitializedCopyN_ok o
              (rhs.data_.readN v.size_ (rhs.size_ - v.size_)) k2 m v.size_ m2 k3 heq2
            rw [← h]
            show rhs.size_ ≤ m2.Capacity
            rw [hm2, Capacity_writeN, hm, Capacity_writeN]
            omega
  · intro h
    unfold Vector.copyAssign at h
    split at h
    · split at h
      · simp only [Except.error.injEq] at h
        rw [← h]
        exact hInv
      · exact absurd h (by simp)
    · next hle =>
      split at h
      · split at h
        · next m heq =>
          simp only [Except.error.injEq] at h
          have hm := assignN_error_capacity o (rhs.data_.readN 0 rhs.size_) 0 v.data_ 0 m heq
          rw [← h]
          show v.size_ ≤ m.Capacity
          rw [hm]
          omega
        · exact absurd h (by simp)
      · split at h
        · next m heq =>
          simp only [Except.error.injEq] at h
          have hm := assignN_error_capacity o (rhs.data_.readN 0 v.size_) 0 v.data_ 0 m heq
          rw [← h]
          show v.size_ ≤ m.Capacity
          rw [hm]
          omega
        · next m k2 heq =>
          split at h
          · next m2 heq2 =>
            simp only [Except.error.injEq] at h
            have hm := assignN_ok o (rhs.data_.readN 0 v.size_) 0 v.data_ 0 m k2 heq
            have hm2 := uninitializedCopyN_error_capacity o
              (rhs.data_.readN v.size_ (rhs.size_ - v.size_)) k2 m v.size_ m2 heq2
            rw [← h]
            show v.size_ ≤ m2.Capacity
            rw [hm2, hm, Capacity_writeN]
            omega
          · exact absurd h (by simp)

theorem Resize_exits_inv [Inhabited α] (useMove : Bool) (o : Nat → Bool)
    (v w : Vector α) (n : Nat) (hInv : v.Inv) :
    (v.Resize useMove o n = .ok w → w.Inv) ∧
    (v.Resize useMove o n = .error w → w.Inv) := by
  have hc : v.Capacity = v.data_.Capacity := rfl
  have hInv2 : v.size_ ≤ v.Capacity := hInv
  constructor
  · intro h
    unfold Vector.Resize at h
    split at h
    · simp only [Except.ok.injEq] at h
      rw [← h]
      exact hInv
    · split at h
      · next hlt =>
        simp only [Except.ok.injEq] at h
        rw [← h]
        show n ≤ (v.data_.destroyN n (v.size_ - n)).Capacity
        rw [Capacity_destroyN]
        omega
      · next hge =>
        split at h
        · exact absurd h (by simp)
        · next v2 heq =>
          simp only [Except.ok.injEq] at h
          obtain ⟨-, hcap⟩ := Reserve_ok_spec useMove o v v2 n heq
          rw [← h]
          show n ≤ (v2.data_.writeN v.size_ _).Capacity
          rw [Capacity_writeN]
          have hcap2 : v2.Capacity = max v.Capacity n := hcap
          have hcap3 : v2.Capacity = v2.data_.Capacity := rfl
          omega
  · intro h
    unfold Vector.Resize at h
    split at h
    · exact absurd h (by simp)
    · split at h
      · exact absurd h (by simp)
      · split at h
        · next e heq =>
          simp only [Except.error.injEq] at h
          rw [← h, Reserve_error_eq useMove o v e n heq]
          exact hInv
        · exact absurd h (by simp)

theorem Erase_inv (v : Vector α) (pos : Nat) (hInv : v.Inv) (_hpos : pos ≤ v.size_) :
    (v.Erase pos).1.Inv := by
  unfold Vector.Erase
  split
  · exact PopBack_inv v hInv
  · show (Vector.PopBack ⟨v.data_.writeN pos _, v.size_⟩).Inv
    apply PopBack_inv
    show v.size_ ≤ (v.data_.writeN pos _).Capacity
    rw [Capacity_writeN]
    exact hInv

/-! ### Claim theorems -/

/-- C1 (code defect, concrete evaluation): a full vector `[10]`
(size 1 = capacity 1), a positional insert at index 0 under the copy
relocation policy, and an oracle that makes the relocation of the existing
element into the new block fail.  The source's `catch` handler for the
suffix relocation destroys slots `[0, index]` of the new block but does not
rethrow, so `Emplace` returns normally (`ok`, no failure propagated), adopts
the emptied new block, and increments `size_`: the result has `size_ = 2`
yet zero live elements (the representation invariant `WF` is violated), the
original element is gone, and the caller never learns of the failure —
contradicting the mandated strong guarantee. -/
theorem emplace_realloc_suffix_failure_swallowed :
    Vector.Emplace false (fun _ => true) (⟨⟨[some 10]⟩, 1⟩ : Vector Nat) 0
        (fun _ => Except.ok 5)
      = Except.ok (⟨⟨[none, none]⟩, 2⟩, 0) ∧
    (⟨⟨[none, none]⟩, 2⟩ : Vector Nat).size_ = 2 ∧
    (⟨⟨[none, none]⟩, 2⟩ : Vector Nat).toList = [] ∧
    ¬ (⟨⟨[none, none]⟩, 2⟩ : Vector Nat).WF :=
  ⟨rfl, rfl, rfl, by decide⟩

/-- C3: `Reserve` and growth triggered by append (`EmplaceBack`) build the
new storage first and adopt it only on full success — whenever either
operation exits with a failure, the vector it leaves behind is exactly the
original one: same storage, size, and element values. -/
theorem reserve_and_growth_failure_leave_vector_intact (useMove : Bool) (o : Nat → Bool)
    (v : Vector α) (k : Nat) (mkF : RawMemory α → Except Unit α) :
    (match v.Reserve useMove o k with
     | .error e => e = v
     | .ok _ => True) ∧
    (match v.EmplaceBack useMove o mkF with
     | .error e => e = v
     | .ok _ => True) := by
  constructor
  · cases hres : v.Reserve useMove o k with
    | error e => exact Reserve_error_eq useMove o v e k hres
    | ok w => trivial
  · cases hres : v.EmplaceBack useMove o mkF with
    | error e => exact EmplaceBack_error_eq useMove o v e mkF hres
    | ok w => trivial

/-- C2: when the source's size strictly exceeds the destination's capacity,
copy assignment takes the rebuild-and-swap path and gives the strong
guarantee: if any element copy fails, the exception leaves the destination
exactly as it was (same storage, size, capacity, and element values); on
success the destination equals the source (same size and element values,
with capacity exactly the source's size). -/
theorem copy_assign_rebuild_strong_guarantee (o : Nat → Bool) (v rhs : Vector α)
    (hWF : rhs.WF) (hgt : rhs.size_ > v.Capacity) :
    match v.copyAssign o rhs with
    | .error e => e = v
    | .ok d => d.size_ = rhs.size_ ∧ d.Capacity = rhs.size_ ∧ d.toList = rhs.toList := by
  have hcond : rhs.size_ > v.data_.Capacity := hgt
  cases hres : v.copyAssign o rhs with
  | error e =>
    unfold Vector.copyAssign at hres
    rw [if_pos hcond] at hres
    split at hres
    · simp only [Except.error.injEq] at hres
      exact hres.symm
    · exact absurd hres (by simp)
  | ok d =>
    unfold Vector.copyAssign at hres
    rw [if_pos hcond] at hres
    split at hres
    · exact absurd hres (by simp)
    · next rhsCopy heq =>
      simp only [Except.ok.injEq] at hres
      obtain ⟨hdata, -⟩ := copyCtor_ok_eq o rhs rhsCopy heq
      have hd : d = ⟨rhsCopy.data_, rhs.size_⟩ := hres.symm
      refine ⟨by rw [hd], ?_, ?_⟩
      · rw [hd]
        show rhsCopy.data_.Capacity = rhs.size_
        rw [hdata, Capacity_writeN, Capacity_Allocate]
      · rw [hd]
        show (rhsCopy.data_.buffer_.take rhs.size_).reduceOption = rhs.toList
        rw [hdata, writeN_fresh_take rhs.data_ rhs.size_ rhs.size_ hWF.1 le_rfl]
        rfl

/-- C2 witness: assigning the one-element source `[3]` into the empty,
zero-capacity destination under a never-failing oracle. -/
theorem copy_assign_rebuild_strong_guarantee_witness :
    (⟨⟨[some 3]⟩, 1⟩ : Vector Nat).WF ∧
    (⟨⟨[some 3]⟩, 1⟩ : Vector Nat).size_ > (⟨⟨[]⟩, 0⟩ : Vector Nat).Capacity ∧
    ((1 : Nat) = 1 ∧ (1 : Nat) = 1 ∧ ([3] : List Nat) = [3]) :=
  ⟨by decide, by decide,
    copy_assign_rebuild_strong_guarantee (fun _ => false) ⟨⟨[]⟩, 0⟩ ⟨⟨[some 3]⟩, 1⟩
      (by decide) (by decide)⟩

/-- C4: the invariant `size ≤ capacity` holds at the exit of every public
operation — every normal or exceptional exit state enumerated by `Exit`
(construction, copy/move assignment, `Reserve`, `Resize`,
`PushBack`/`EmplaceBack`, `PopBack`, `Insert`/`Emplace`, `Erase`, `Swap`,
under the entry invariant and the asserted position bounds) satisfies it. -/
theorem size_le_capacity_at_every_exit (w : Vector α) (h : Exit w) : w.Inv := by
  cases h with
  | mkDefaultE => exact Nat.le_refl 0
  | mkSizedE n =>
    show n ≤ ((RawMemory.Allocate α n).writeN 0 _).Capacity
    rw [Capacity_writeN, Capacity_Allocate]
  | copyCtorOk o other w heq =>
    obtain ⟨hdata, hsize⟩ := copyCtor_ok_eq o other w heq
    show w.size_ ≤ w.data_.Capacity
    rw [hdata, Capacity_writeN, Capacity_Allocate, hsize]
  | moveCtorDst other hInv => exact hInv
  | moveCtorSrc other => exact Nat.le_refl 0
  | copyAssignOk o v rhs w hInv heq => exact (copyAssign_exits_inv o v rhs w hInv).1 heq
  | copyAssignErr o v rhs w hInv heq => exact (copyAssign_exits_inv o v rhs w hInv).2 heq
  | moveAssignDst v rhs hInv => exact hInv
  | moveAssignSrc v rhs => exact Nat.le_refl 0
  | swapFst a b hInvB => exact hInvB
  | swapSnd a b hInvA => exact hInvA
  | reserveOk useMove o v w k hInv heq =>
    obtain ⟨hsz, hcap⟩ := Reserve_ok_spec useMove o v w k heq
    show w.size_ ≤ w.Capacity
    rw [hsz, hcap]
    have h2 : v.size_ ≤ v.Capacity := hInv
    omega
  | reserveErr useMove o v w k hInv heq =>
    rw [Reserve_error_eq useMove o v w k heq]
    exact hInv
  | resizeOk useMove o v w n hInv heq => exact (Resize_exits_inv useMove o v w n hInv).1 heq
  | resizeErr useMove o v w n hInv heq => exact (Resize_exits_inv useMove o v w n hInv).2 heq
  | popBackE v hInv => exact PopBack_inv v hInv
  | emplaceBackOk useMove o v w mkF elem hInv heq =>
    exact EmplaceBack_ok_inv useMove o v w mkF elem hInv heq
  | emplaceBackErr useMove o v w mkF hInv heq =>
    rw [EmplaceBack_error_eq useMove o v w mkF heq]
    exact hInv
  | pushBackOk useMove o v w mk hInv heq =>
    exact (PushBack_exits_inv useMove o v w mk hInv).1 heq
  | pushBackErr useMove o v w mk hInv heq =>
    exact (PushBack_exits_inv useMove o v w mk hInv).2 heq
  | emplaceOk useMove o v w pos i mkF hInv hpos heq =>
    exact Emplace_ok_inv useMove o v w pos i mkF hInv hpos heq
  | emplaceErr useMove o v w pos mkF hInv hpos heq =>
    rw [Emplace_error_eq useMove o v w pos mkF heq]
    exact hInv
  | insertOk useMove o v w pos i mk hInv hpos heq =>
    exact Emplace_ok_inv useMove o v w pos i (fun _ => mk) hInv hpos heq
  | insertErr useMove o v w pos mk hInv hpos heq =>
    rw [Emplace_error_eq useMove o v w pos (fun _ => mk) heq]
    exact hInv
  | eraseE v pos hInv hpos => exact Erase_inv v pos hInv hpos

/-- C4 witness: the invariant holds at the exit of a concrete `PopBack` on
the one-element vector `[1]`. -/
theorem size_le_capacity_at_every_exit_witness :
    (Vector.PopBack (⟨⟨[some 1]⟩, 1⟩ : Vector Nat)).Inv :=
  size_le_capacity_at_every_exit _ (Exit.popBackE ⟨⟨[some 1]⟩, 1⟩ (by decide))

/-- C5: a successful `Reserve(k)` with `k > capacity` yields capacity
exactly `k` and preserves the size, order, and values of the elements; with
`k ≤ capacity` it returns the vector unchanged.  The relocation pass touches
the existing elements' indices without repetition (each of the `size_`
elements exactly once on the growth path, none on the no-op path). -/
theorem reserve_exact_capacity_and_preservation (useMove : Bool) (o : Nat → Bool)
    (v v2 : Vector α) (k : Nat) (hWF : v.WF)
    (hok : v.Reserve useMove o k = .ok v2) :
    (k ≤ v.Capacity → v2 = v) ∧
    (v.Capacity < k → v2.Capacity = k ∧ v2.size_ = v.size_ ∧ v2.toList = v.toList) ∧
    (v.ReserveTouches k).Nodup ∧
    (v.Capacity < k → (v.ReserveTouches k).length = v.size_) ∧
    (k ≤ v.Capacity → v.ReserveTouches k = []) := by
  unfold Vector.Reserve at hok
  by_cases hk : k ≤ v.data_.Capacity
  · rw [if_pos hk] at hok
    simp only [Except.ok.injEq] at hok
    have hk2 : k ≤ v.Capacity := hk
    refine ⟨fun _ => hok.symm, fun hlt => absurd hlt (by omega), ?_, ?_, ?_⟩
    · rw [Vector.ReserveTouches, if_pos hk]
      exact List.nodup_nil
    · intro hlt
      exact absurd hlt (by
        show ¬ v.data_.Capacity < k
        omega)
    · intro _
      rw [Vector.ReserveTouches, if_pos hk]
  · rw [if_neg hk] at hok
    split at hok
    · exact absurd hok (by simp)
    · next f2 nd k2 heq =>
      simp only [Except.ok.injEq] at hok
      obtain ⟨-, hnd⟩ := CopyOrMove_ok useMove o 0 v.data_ 0
        (RawMemory.Allocate α k) 0 v.size_ f2 nd k2 heq
      have hv2 : v2 = ⟨nd, v.size_⟩ := hok.symm
      have hcapeq : v.Capacity = v.data_.Capacity := rfl
      have hszle : v.size_ ≤ v.Capacity := hWF.1
      have hklt : v.Capacity < k := by omega
      refine ⟨fun hle => absurd hle (by omega), fun _ => ?_, ?_, fun _ => ?_, fun hle => absurd hle (by omega)⟩
      · refine ⟨?_, by rw [hv2], ?_⟩
        · rw [hv2]
          show nd.Capacity = k
          rw [hnd, Capacity_writeN, Capacity_Allocate]
        · rw [hv2]
          show (nd.buffer_.take v.size_).reduceOption = v.toList
          rw [hnd, writeN_fresh_take v.data_ v.size_ k hWF.1 (by omega)]
          rfl
      · rw [Vector.ReserveTouches, if_neg hk]
        exact List.nodup_range v.size_
      · rw [Vector.ReserveTouches, if_neg hk]
        exact List.length_range v.size_

/-- C5 witness: `Reserve(3)` on the one-element vector `[4]` of capacity 1,
under the move policy. -/
theorem reserve_exact_capacity_and_preservation_witness :
    (⟨⟨[some 4]⟩, 1⟩ : Vector Nat).WF ∧
    Vector.Reserve true (fun _ => false) (⟨⟨[some 4]⟩, 1⟩ : Vector Nat) 3
      = .ok (⟨⟨[some 4, none, none]⟩, 1⟩ : Vector Nat) ∧
    ((3 ≤ (⟨⟨[some 4]⟩, 1⟩ : Vector Nat).Capacity →
        (⟨⟨[some 4, none, none]⟩, 1⟩ : Vector Nat) = ⟨⟨[some 4]⟩, 1⟩) ∧
      ((⟨⟨[some 4]⟩, 1⟩ : Vector Nat).Capacity < 3 →
        (⟨⟨[some 4, none, none]⟩, 1⟩ : Vector Nat).Capacity = 3 ∧
        (⟨⟨[some 4, none, none]⟩, 1⟩ : Vector Nat).size_ = 1 ∧
        (⟨⟨[some 4, none, none]⟩, 1⟩ : Vector Nat).toList = (⟨⟨[some 4]⟩, 1⟩ : Vector Nat).toList) ∧
      (Vector.ReserveTouches (⟨⟨[some 4]⟩, 1⟩ : Vector Nat) 3).Nodup ∧
      ((⟨⟨[some 4]⟩, 1⟩ : Vector Nat).Capacity < 3 →
        (Vector.ReserveTouches (⟨⟨[some 4]⟩, 1⟩ : Vector Nat) 3).length = 1) ∧
      (3 ≤ (⟨⟨[some 4]⟩, 1⟩ : Vector Nat).Capacity →
        Vector.ReserveTouches (⟨⟨[some 4]⟩, 1⟩ : Vector Nat) 3 = [])) :=
  ⟨by decide, rfl,
    reserve_exact_capacity_and_preservation true (fun _ => false) ⟨⟨[some 4]⟩, 1⟩
      ⟨⟨[some 4, none, none]⟩, 1⟩ 3 (by decide) rfl⟩

/-- C7 (counterexample): inserting at the end position `p = n = 1` of the
vector `[7]` with spare capacity delegates to `EmplaceBack`, which
constructs the value directly in place: the cost is `(0, 0)` existing-element
relocations and extra moves, not the claimed `n − p = 0` relocations plus
one extra move of the inserted value. -/
theorem emplace_cost_at_end_cex :
    Vector.EmplaceCost (⟨⟨[some 7, none]⟩, 1⟩ : Vector Nat) 1 ≠ (1 - 1, 1) := by
  decide

/-- C7 (amended): inserting at index `p ≤ n` into a vector of size `n` with
spare capacity performs no reallocation (capacity unchanged), preserves the
relative order of all `n + 1` elements, and relocates exactly `n − p`
existing elements — plus one extra move of the inserted value when `p < n`;
at `p = n` the value is constructed directly in place with no extra move. -/
theorem emplace_spare_capacity_insert (useMove : Bool) (o : Nat → Bool)
    (v v2 : Vector α) (pos i : Nat) (a : α)
    (hWF : v.WF) (hcap : v.size_ < v.Capacity) (hpos : pos ≤ v.size_)
    (heq : v.Emplace useMove o pos (fun _ => .ok a) = .ok (v2, i)) :
    i = pos ∧ v2.Capacity = v.Capacity ∧ v2.size_ = v.size_ + 1 ∧
    v2.toList = v.toList.take pos ++ a :: v.toList.drop pos ∧
    v.EmplaceCost pos = (v.size_ - pos, if pos < v.size_ then 1 else 0) := by
  have hlen : v.size_ < v.data_.buffer_.length := hcap
  have hne : v.size_ ≠ v.Capacity := Nat.ne_of_lt hcap
  have htll : v.toList.length = v.size_ := toList_take_length v hWF v.size_ le_rfl
  by_cases hend : pos = v.size_
  · have hEB : v.EmplaceBack useMove o (fun _ => .ok a)
        = .ok (⟨v.data_.set v.size_ (some a), v.size_ + 1⟩, a) := by
      unfold Vector.EmplaceBack
      rw [if_neg hne]
    unfold Vector.Emplace at heq
    rw [if_pos hend, hEB] at heq
    simp only [Except.ok.injEq, Prod.mk.injEq] at heq
    obtain ⟨hv2, hi⟩ := heq
    subst hv2
    refine ⟨hi.symm, Capacity_set v.data_ v.size_ (some a), rfl, ?_, ?_⟩
    · show ((v.data_.buffer_.set v.size_ (some a)).take (v.size_ + 1)).reduceOption = _
      rw [take_set_succ v.data_.buffer_ v.size_ (some a) hlen]
      rw [List.reduceOption_append, List.reduceOption_cons_of_some, List.reduceOption_nil]
      rw [hend, List.take_of_length_le (le_of_eq htll),
        List.drop_eq_nil_of_le (le_of_eq htll)]
      rfl
    · rw [Vector.EmplaceCost, if_pos hend, if_neg hne, hend]
      simp
  · have hposlt : pos < v.size_ := by omega
    unfold Vector.Emplace at heq
    rw [if_neg hend, if_pos hne] at heq
    simp only [Except.ok.injEq, Prod.mk.injEq] at heq
    obtain ⟨hv2, hi⟩ := heq
    subst hv2
    refine ⟨hi.symm, ?_, rfl, ?_, ?_⟩
    · show (((v.data_.set v.size_ (v.data_.get (v.size_ - 1))).writeN (pos + 1)
        ((v.data_.set v.size_ (v.data_.get (v.size_ - 1))).readN pos
          (v.size_ - 1 - pos))).set pos (some a)).Capacity = v.Capacity
      rw [Capacity_set, Capacity_writeN, Capacity_set]
      rfl
    · show (((((v.data_.set v.size_ (v.data_.get (v.size_ - 1))).writeN (pos + 1)
        ((v.data_.set v.size_ (v.data_.get (v.size_ - 1))).readN pos
          (v.size_ - 1 - pos))).set pos (some a)).buffer_).take (v.size_ + 1)).reduceOption
        = v.toList.take pos ++ a :: v.toList.drop pos
      have hbuf : ((((v.data_.set v.size_ (v.data_.get (v.size_ - 1))).writeN (pos + 1)
          ((v.data_.set v.size_ (v.data_.get (v.size_ - 1))).readN pos
            (v.size_ - 1 - pos))).set pos (some a)).buffer_)
          = (listWriteN
              (v.data_.buffer_.set v.size_ (v.data_.buffer_.getD (v.size_ - 1) none))
              (pos + 1)
              (((v.data_.buffer_.set v.size_
                  (v.data_.buffer_.getD (v.size_ - 1) none)).drop pos).take
                (v.size_ - 1 - pos))).set pos (some a) := rfl
      rw [hbuf, spare_insert_take v.data_.buffer_ v.size_ pos a hlen hposlt]
      rw [List.reduceOption_append, List.reduceOption_cons_of_some]
      have h5 : v.size_ = pos + (v.size_ - pos) := by omega
      have hsplitB : v.data_.buffer_.take v.size_
          = v.data_.buffer_.take pos ++ (v.data_.buffer_.drop pos).take (v.size_ - pos) := by
        nth_rewrite 1 [h5]
        rw [List.take_add]
      have hROlen : ((v.data_.buffer_.take pos).reduceOption).length = pos :=
        toList_take_length v hWF pos (by omega)
      have htl : v.toList = (v.data_.buffer_.take pos).reduceOption
          ++ ((v.data_.buffer_.drop pos).take (v.size_ - pos)).reduceOption := by
        show (v.data_.buffer_.take v.size_).reduceOption = _
        rw [hsplitB, List.reduceOption_append]
      rw [htl]
      rw [List.take_append_eq_append_take, hROlen, Nat.sub_self, List.take_zero,
        List.append_nil, List.take_of_length_le (le_of_eq hROlen)]
      rw [List.drop_append_eq_append_drop, hROlen, Nat.sub_self, List.drop_zero,
        List.drop_eq_nil_of_le (le_of_eq hROlen), List.nil_append]
    · rw [Vector.EmplaceCost, if_neg hend, if_pos hne, if_pos hposlt]
      have h4 : 1 + (v.size_ - 1 - pos) = v.size_ - pos := by omega
      rw [h4]

/-- C7 witness: inserting 9 at index 1 of `[1, 2]` (capacity 3). -/
theorem emplace_spare_capacity_insert_witness :
    (⟨⟨[some 1, some 2, none]⟩, 2⟩ : Vector Nat).WF ∧
    (⟨⟨[some 1, some 2, none]⟩, 2⟩ : Vector Nat).size_
      < (⟨⟨[some 1, some 2, none]⟩, 2⟩ : Vector Nat).Capacity ∧
    1 ≤ (⟨⟨[some 1, some 2, none]⟩, 2⟩ : Vector Nat).size_ ∧
    ((1 : Nat) = 1 ∧ (3 : Nat) = 3 ∧ (3 : Nat) = 3 ∧
      ([1, 9, 2] : List Nat) = [1, 9, 2] ∧ ((1 : Nat), (1 : Nat)) = (1, 1)) :=
  ⟨by decide, by decide, by decide,
    emplace_spare_capacity_insert true (fun _ => false) ⟨⟨[some 1, some 2, none]⟩, 2⟩
      ⟨⟨[some 1, some 9, some 2]⟩, 3⟩ 1 1 9 (by decide) (by decide) (by decide) rfl⟩

/-- C10: inserting (with spare capacity, at a non-end position) an argument
that aliases one of the vector's own elements stores that element's
original, pre-shift value: the temporary is constructed from the buffer as
it is at entry, before the last element is moved into the tail slot and the
range `[pos, last)` is shifted. -/
theorem emplace_aliasing_uses_preshift_value (useMove : Bool) (o : Nat → Bool)
    (v v2 : Vector α) (pos srcIdx i : Nat)
    (hWF : v.WF) (hcap : v.size_ < v.Capacity) (hpos : pos < v.size_)
    (hsrc : srcIdx < v.size_)
    (heq : v.Emplace useMove o pos
      (fun m => match m.get srcIdx with
        | some b => Except.ok b
        | none => Except.error ()) = .ok (v2, i)) :
    i = pos ∧ v2.size_ = v.size_ + 1 ∧ v2.data_.get pos = v.data_.get srcIdx := by
  obtain ⟨b, hb⟩ := WF_get_some v hWF srcIdx hsrc
  unfold Vector.Emplace at heq
  rw [if_neg (by omega), if_pos (Nat.ne_of_lt hcap)] at heq
  simp only [hb, Except.ok.injEq, Prod.mk.injEq] at heq
  obtain ⟨hv2, hi⟩ := heq
  subst hv2
  refine ⟨hi.symm, rfl, ?_⟩
  rw [hb]
  apply get_set_self
  have hc : (((v.data_.set v.size_ (v.data_.get (v.size_ - 1))).writeN (pos + 1)
      ((v.data_.set v.size_ (v.data_.get (v.size_ - 1))).readN pos
        (v.size_ - 1 - pos)))).Capacity = v.Capacity := by
    rw [Capacity_writeN, Capacity_set]
    rfl
  omega

/-- C10 witness: `v = [3, 9]` with capacity 3; inserting a reference to
`v[1]` at position 0 stores the pre-shift value 9 at slot 0. -/
theorem emplace_aliasing_uses_preshift_value_witness :
    (⟨⟨[some 3, some 9, none]⟩, 2⟩ : Vector Nat).WF ∧
    (⟨⟨[some 3, some 9, none]⟩, 2⟩ : Vector Nat).size_
      < (⟨⟨[some 3, some 9, none]⟩, 2⟩ : Vector Nat).Capacity ∧
    0 < (⟨⟨[some 3, some 9, none]⟩, 2⟩ : Vector Nat).size_ ∧
    1 < (⟨⟨[some 3, some 9, none]⟩, 2⟩ : Vector Nat).size_ ∧
    ((0 : Nat) = 0 ∧ (3 : Nat) = 3 ∧ (some 9 : Option Nat) = some 9) :=
  ⟨by decide, by decide, by decide, by decide,
    emplace_aliasing_uses_preshift_value true (fun _ => false)
      ⟨⟨[some 3, some 9, none]⟩, 2⟩ ⟨⟨[some 9, some 3, some 9]⟩, 3⟩ 0 1 0
      (by decide) (by decide) (by decide) (by decide) rfl⟩

/-- C6 (counterexample): performing zero appends leaves the
default-constructed vector at capacity 0, which is not the smallest power of
two that is `≥ 0` (that is `2^0 = 1`): the doubling-schedule formula fails
at `N = 0`. -/
theorem append_doubling_schedule_cex : (appendN 0).Capacity ≠ 2 ^ 0 := by
  decide

/-- C6 (amended): for every `N ≥ 1`, `N` sequential appends starting from
the empty, zero-capacity vector yield size `N` and capacity exactly
`2 ^ ⌈log₂ N⌉` — the smallest power of two that is `≥ N` (after zero appends
the capacity is still 0); and the `N`-th append grows the capacity to
`max(1, 2 × size)` exactly when the vector is full, leaving it unchanged
otherwise. -/
theorem append_doubling_schedule (N : Nat) (h : 1 ≤ N) :
    (appendN N).size_ = N ∧
    (appendN N).Capacity = 2 ^ Nat.clog 2 N ∧
    ((appendN N).size_ = (appendN N).Capacity →
      (appendN (N + 1)).Capacity = max 1 (2 * (appendN N).size_)) ∧
    ((appendN N).size_ ≠ (appendN N).Capacity →
      (appendN (N + 1)).Capacity = (appendN N).Capacity) := by
  obtain ⟨hsz, -, hex⟩ := appendN_size_cap N
  obtain ⟨t, hcap, hle, hlt⟩ := hex h
  refine ⟨hsz, ?_, ?_, ?_⟩
  · rw [hcap]
    congr 1
    have h1 : Nat.clog 2 N ≤ t := (Nat.le_pow_iff_clog_le (by norm_num)).1 hle
    have h2 : t ≤ Nat.clog 2 N := by
      by_contra hcon
      push_neg at hcon
      have hp1 : 2 ^ (Nat.clog 2 N + 1) ≤ 2 ^ t :=
        Nat.pow_le_pow_right (by norm_num) (by omega)
      have hN : N ≤ 2 ^ Nat.clog 2 N := Nat.le_pow_clog (by norm_num) N
      have hp2 : 2 ^ (Nat.clog 2 N + 1) = 2 * 2 ^ Nat.clog 2 N := by
        rw [Nat.pow_succ]
        omega
      omega
    omega
  · intro hfull
    rw [appendN_succ, appendStep_cap_full _ _ hfull, hsz, if_neg (by omega)]
    omega
  · intro hnotfull
    rw [appendN_succ, appendStep_cap_spare _ _ hnotfull]

/-- C6 witness: five appends give size 5 and capacity `2^3 = 8`; the vector
is not full afterwards, so a sixth append keeps capacity 8. -/
theorem append_doubling_schedule_witness :
    (appendN 5).size_ = 5 ∧
    (appendN 5).Capacity = 2 ^ Nat.clog 2 5 ∧
    ((appendN 5).size_ = (appendN 5).Capacity →
      (appendN 6).Capacity = max 1 (2 * (appendN 5).size_)) ∧
    ((appendN 5).size_ ≠ (appendN 5).Capacity →
      (appendN 6).Capacity = (appendN 5).Capacity) :=
  append_doubling_schedule 5 (by decide)

/-- C8: move construction and move assignment transfer the source's storage
and size wholesale to the destination (the destination ends with exactly the
source's prior elements in order and the source's prior capacity) and leave
the source with size 0 and zero capacity; the equations on `data_` show the
storage is handed over as-is, so no element is copied, moved, or
destroyed. -/
theorem move_transfers_storage_and_empties_source (other dest : Vector α) :
    Vector.moveCtor other = (⟨other.data_, other.size_⟩, (⟨⟨[]⟩, 0⟩ : Vector α)) ∧
    (Vector.moveCtor other).1.data_ = other.data_ ∧
    (Vector.moveCtor other).1.toList = other.toList ∧
    (Vector.moveCtor other).1.Capacity = other.Capacity ∧
    (Vector.moveCtor other).1.size_ = other.size_ ∧
    (Vector.moveCtor other).2.size_ = 0 ∧
    (Vector.moveCtor other).2.Capacity = 0 ∧
    Vector.moveAssign dest other = (⟨other.data_, other.size_⟩, (⟨⟨[]⟩, 0⟩ : Vector α)) ∧
    (Vector.moveAssign dest other).1.data_ = other.data_ ∧
    (Vector.moveAssign dest other).1.toList = other.toList ∧
    (Vector.moveAssign dest other).1.Capacity = other.Capacity ∧
    (Vector.moveAssign dest other).1.size_ = other.size_ ∧
    (Vector.moveAssign dest other).2.size_ = 0 ∧
    (Vector.moveAssign dest other).2.Capacity = 0 :=
  ⟨rfl, rfl, rfl, rfl, rfl, rfl, rfl, rfl, rfl, rfl, rfl, rfl, rfl, rfl⟩

/-- C9 (counterexample): on the non-empty vector `[1, 2]`, `Erase` at the
end position is not a no-op — it removes the last element (the source
delegates to `PopBack`), changing both size and contents. -/
theorem erase_end_not_noop_cex :
    ¬ ((Vector.Erase (⟨⟨[some 1, some 2]⟩, 2⟩ : Vector Nat) 2).1
        = (⟨⟨[some 1, some 2]⟩, 2⟩ : Vector Nat)) := by
  decide

/-- C9 (amended): `Erase` at the end position is defined behavior, not an
error — it acts exactly like `PopBack`: on an empty vector it is a no-op
(returning the vector unchanged), and on a non-empty vector it removes the
last element, decrementing the size by one, keeping the capacity, and
keeping all other elements. -/
theorem erase_end_behaves_as_popback (v : Vector α) (hWF : v.WF) :
    (v.size_ = 0 → v.Erase v.size_ = (v, 0)) ∧
    (0 < v.size_ →
      (v.Erase v.size_).1.size_ = v.size_ - 1 ∧
      (v.Erase v.size_).1.Capacity = v.Capacity ∧
      (v.Erase v.size_).1.toList = v.toList.dropLast) := by
  have herase : v.Erase v.size_ = (v.PopBack, v.PopBack.size_) := by
    rw [Vector.Erase, if_pos rfl]
  constructor
  · intro h0
    rw [herase, Vector.PopBack, if_neg (by omega)]
    rw [h0]
  · intro hpos
    have hpop : v.PopBack = ⟨v.data_.destroyN (v.size_ - 1) 1, v.size_ - 1⟩ := by
      rw [Vector.PopBack, if_pos hpos]
    have hlen : v.size_ ≤ v.data_.buffer_.length := hWF.1
    have hbuf : (v.data_.destroyN (v.size_ - 1) 1).buffer_ =
        v.data_.buffer_.take (v.size_ - 1) ++ [none] ++
          v.data_.buffer_.drop (v.size_ - 1 + 1) := by
      rw [RawMemory.destroyN]
      exact writeN_buffer v.data_ (v.size_ - 1) [none] (by simp [RawMemory.Capacity]; omega)
    have htake : (v.data_.destroyN (v.size_ - 1) 1).buffer_.take (v.size_ - 1) =
        v.data_.buffer_.take (v.size_ - 1) := by
      rw [hbuf, List.append_assoc, List.take_append_eq_append_take]
      have : (v.data_.buffer_.take (v.size_ - 1)).length = v.size_ - 1 := by
        simp [List.length_take]; omega
      rw [this]
      simp
    have hnm1 : v.size_ - 1 < v.data_.buffer_.length := by omega
    obtain ⟨b, hb⟩ : ∃ b, v.data_.buffer_[v.size_ - 1] = some b := by
      rw [← Option.isSome_iff_exists]
      exact WF_getElem_isSome v hWF (v.size_ - 1) (by omega) hnm1
    have hsplit : v.data_.buffer_.take v.size_ =
        v.data_.buffer_.take (v.size_ - 1) ++ [some b] := by
      have h1 : v.size_ = (v.size_ - 1) + 1 := by omega
      rw [h1, List.take_succ, List.getElem?_eq_getElem hnm1]
      simp [hb]
    refine ⟨by rw [herase, hpop], by rw [herase, hpop]; simp [Vector.Capacity, Capacity_destroyN], ?_⟩
    rw [herase, hpop, Vector.toList, Vector.toList]
    show ((v.data_.destroyN (v.size_ - 1) 1).buffer_.take (v.size_ - 1)).reduceOption
      = ((v.data_.buffer_.take v.size_).reduceOption).dropLast
    rw [htake, hsplit, List.reduceOption_append]
    simp [List.dropLast_concat]

/-- C9 witness: `Erase` at the end position of the two-element vector
`[1, 2]` removes the last element, keeps capacity 2, and keeps `[1]`. -/
theorem erase_end_behaves_as_popback_witness :
    (⟨⟨[some 1, some 2]⟩, 2⟩ : Vector Nat).WF ∧
    (((2 : Nat) = 0 →
        Vector.Erase (⟨⟨[some 1, some 2]⟩, 2⟩ : Vector Nat) 2
          = (⟨⟨[some 1, some 2]⟩, 2⟩, 0)) ∧
      (0 < (2 : Nat) →
        (Vector.Erase (⟨⟨[some 1, some 2]⟩, 2⟩ : Vector Nat) 2).1.size_ = 2 - 1 ∧
        (Vector.Erase (⟨⟨[some 1, some 2]⟩, 2⟩ : Vector Nat) 2).1.Capacity = 2 ∧
        (Vector.Erase (⟨⟨[some 1, some 2]⟩, 2⟩ : Vector Nat) 2).1.toList
          = ([1, 2] : List Nat).dropLast)) :=
  ⟨by decide, erase_end_behaves_as_popback ⟨⟨[some 1, some 2]⟩, 2⟩ (by decide)⟩

end AV
